import Mathlib

/-
Shallow embedding of the CI/CD pipeline engine in
src/python/deployment/cicd_pipeline.py.

Modelling conventions:
* Step ids are `Nat` (the Python code uses fresh uuid4 strings; the only
  property used is that generated ids are fresh, which sequential numbers
  provide).
* `datetime.utcnow()` timestamps are abstracted to `Option Unit` presence
  flags (set / unset); no verified property depends on the time values.
* Python dicts are insertion-ordered association lists; `dictUpd` mirrors
  `d[k] = v` (replace in place if present, append otherwise), `List.lookup`
  mirrors `d[k]` / `k in d`.
* The external command execution inside `PipelineExecutor.execute_step` is
  abstracted by a `runner : Nat → Bool` oracle: `true` is the normal path of
  the source (which simulates a successful execution), `false` is the
  `except` branch (an exception raised while executing the command).
  `srcRunner` is the runner realised by the source itself.
-/

set_option maxHeartbeats 1000000

/-- Step status: the Python code stores the strings
"pending" / "in_progress" / "succeeded" / "failed" on `PipelineStep.status`. -/
inductive StepStatus where
  | pending
  | in_progress
  | succeeded
  | failed
  deriving DecidableEq, Repr

/-- `PipelineStatus` enum of the source. -/
inductive PipelineStatus where
  | pending
  | in_progress
  | succeeded
  | failed
  | aborted
  deriving DecidableEq, Repr

/-- `PipelineStage` enum of the source (descriptive only, never affects scheduling). -/
inductive PipelineStage where
  | source
  | build
  | test
  | deploy
  | verify
  deriving DecidableEq, Repr

/-- One fuel-indexed left-to-right pass replacing every non-overlapping
occurrence of the pattern `p :: ps` by `rep`, mirroring Python's
`str.replace` for a non-empty pattern.  With `fuel ≥` the length of the
scanned list the fuel never runs out. -/
def replCharsF (p : Char) (ps rep : List Char) : Nat → List Char → List Char
  | 0, l => l
  | _ + 1, [] => []
  | fuel + 1, c :: rest =>
    if (p :: ps).isPrefixOf (c :: rest) then
      rep ++ replCharsF p ps rep fuel (rest.drop ps.length)
    else
      c :: replCharsF p ps rep fuel rest

/-- `command.replace(pat, rep)` of Python for the non-empty patterns
`"${NAME}"` used by the source (an empty pattern never occurs there). -/
def strReplace (s pat rep : String) : String :=
  match pat.data with
  | [] => s
  | p :: ps => ⟨replCharsF p ps rep.data s.data.length s.data⟩

/-- Python dict assignment `d[k] = v` on an insertion-ordered dict: replaces
the value in place if the key is present, appends otherwise. -/
def dictUpd {α : Type} (d : List (String × α)) (k : String) (v : α) :
    List (String × α) :=
  if d.any (fun e => e.1 == k) then
    d.map (fun e => if e.1 == k then (k, v) else e)
  else d ++ [(k, v)]

/-- The variable merge at the start of `PipelineTemplate.create_pipeline`:
`varsMap.update({"APP_ID": app_id, "VERSION": version})`. -/
def mergeVars (vars : List (String × String)) (app_id version : String) :
    List (String × String) :=
  dictUpd (dictUpd vars "APP_ID" app_id) "VERSION" version

/-- The substitution loop of `create_pipeline`:
`for var_name, var_value in varsMap.items(): command = command.replace(...)`. -/
def substituteCommand (varsMap : List (String × String)) (command : String) :
    String :=
  varsMap.foldl (fun c e => strReplace c ("$\x7b" ++ e.1 ++ "\x7d") e.2) command

/-- `PipelineStep` of the source (the uuid `id` lives as the key of the
pipeline's step map). -/
structure PipelineStep where
  name : String
  stage : PipelineStage
  command : String
  dependencies : List Nat
  status : StepStatus
  logs : String
  started_at : Option Unit
  completed_at : Option Unit
  deriving DecidableEq, Repr

/-- `PipelineStep.start`. -/
def PipelineStep.start (s : PipelineStep) : PipelineStep :=
  { s with status := .in_progress, started_at := some () }

/-- `PipelineStep.complete`. -/
def PipelineStep.complete (s : PipelineStep) (success : Bool) (logs : String) :
    PipelineStep :=
  { s with
    status := if success then .succeeded else .failed
    logs := s.logs ++ logs
    completed_at := some () }

/-- `Pipeline` of the source; `steps` is the insertion-ordered dict id → step. -/
structure Pipeline where
  name : String
  app_id : String
  version : String
  steps : List (Nat × PipelineStep)
  status : PipelineStatus
  created_at : Option Unit
  updated_at : Option Unit
  started_at : Option Unit
  completed_at : Option Unit
  deriving DecidableEq, Repr

/-- `pipeline.steps[step_id]` (`none` when `step_id not in pipeline.steps`). -/
def Pipeline.findStep (p : Pipeline) (id : Nat) : Option PipelineStep :=
  p.steps.lookup id

/-- In-place mutation of the step stored under `id` (Python mutates the
`PipelineStep` object held in the dict). -/
def Pipeline.setStep (p : Pipeline) (id : Nat) (s : PipelineStep) : Pipeline :=
  { p with steps := p.steps.map (fun e => if e.1 == id then (id, s) else e) }

/-- `Pipeline.start`. -/
def Pipeline.start (p : Pipeline) : Pipeline :=
  { p with status := .in_progress, started_at := some (), updated_at := some () }

/-- `Pipeline.complete`. -/
def Pipeline.complete (p : Pipeline) (status : PipelineStatus) : Pipeline :=
  { p with status := status, completed_at := some (), updated_at := some () }

/-- `all(s.status in ["succeeded", "failed"] for s in pipeline.steps.values())`. -/
def Pipeline.allComplete (p : Pipeline) : Bool :=
  p.steps.all (fun e => e.2.status == .succeeded || e.2.status == .failed)

/-- `any(s.status == "failed" for s in pipeline.steps.values())`. -/
def Pipeline.anyFailed (p : Pipeline) : Bool :=
  p.steps.any (fun e => e.2.status == .failed)

/-- The dependency guard of `execute_step`: every dependency id must be a key
of the step map and its step must have status "succeeded" (a missing
dependency and a non-succeeded dependency both make `execute_step` return
`False` before `step.start()` is reached). -/
def readyStrict (p : Pipeline) (step : PipelineStep) : Bool :=
  step.dependencies.all (fun dep_id =>
    match p.findStep dep_id with
    | some dep_step => dep_step.status == .succeeded
    | none => false)

/-- The in-loop readiness test of `execute_pipeline`:
`all(pipeline.steps[dep_id].status == "succeeded" for dep_id in step.dependencies
if dep_id in pipeline.steps)` — dependency ids absent from the step map are
skipped by the generator filter. -/
def readyFiltered (p : Pipeline) (step : PipelineStep) : Bool :=
  step.dependencies.all (fun dep_id =>
    match p.findStep dep_id with
    | some dep_step => dep_step.status == .succeeded
    | none => true)

/-- Net effect of `step.start()` followed by `step.complete(True, ...)` on a
step whose command executed successfully. -/
def succStep (step : PipelineStep) : PipelineStep :=
  step.start.complete true "Step executed successfully"

/-- Net effect of `step.start()` followed by `step.complete(False, ...)` on a
step whose command execution raised. -/
def failStep (step : PipelineStep) : PipelineStep :=
  step.start.complete false "Error: step execution raised"

/-- `PipelineExecutor.execute_step` (for a pipeline already registered in
`current_executions`, which is the only way `execute_pipeline` calls it).
Returns the Python return value and the mutated pipeline.  The source binds
the mutated pipeline to a local `p2`; the binding is expanded here. -/
def executeStep (runner : Nat → Bool) (p : Pipeline) (step_id : Nat) :
    Bool × Pipeline :=
  match p.findStep step_id with
  | none => (false, p)
  | some step =>
    if readyStrict p step then
      if runner step_id then
        if (p.setStep step_id (succStep step)).allComplete then
          (true, (p.setStep step_id (succStep step)).complete
            (if (p.setStep step_id (succStep step)).anyFailed then .failed
             else .succeeded))
        else
          (true, p.setStep step_id (succStep step))
      else
        (false, (p.setStep step_id (failStep step)).complete .failed)
    else (false, p)

/-- First phase of `execute_pipeline`: execute every step with no
dependencies, in step-map insertion order. -/
def runNoDeps (runner : Nat → Bool) : List Nat → Pipeline → Pipeline
  | [], p => p
  | id :: rest, p =>
    match p.findStep id with
    | some step =>
      if step.dependencies.isEmpty then
        runNoDeps runner rest (executeStep runner p id).2
      else runNoDeps runner rest p
    | none => runNoDeps runner rest p

/-- One iteration of the `for step_id, step in pipeline.steps.items()` body of
the scheduling loop, threading the `progress_made` flag. -/
def passOnce (runner : Nat → Bool) : List Nat → Pipeline → Bool → Pipeline × Bool
  | [], p, prog => (p, prog)
  | id :: rest, p, prog =>
    match p.findStep id with
    | some step =>
      if step.status == .pending then
        if readyFiltered p step then
          passOnce runner rest (executeStep runner p id).2 true
        else passOnce runner rest p prog
      else passOnce runner rest p prog
    | none => passOnce runner rest p prog

/-- The `while progress_made and pipeline.status == IN_PROGRESS` loop.
`fuel` bounds the number of passes; the Bool result is `true` when the loop
exited because its own condition became false (terminated exactly as the
Python loop does) and `false` when the pass bound was exhausted (the Python
loop would keep spinning). -/
def execLoop (runner : Nat → Bool) : Nat → Pipeline → Pipeline × Bool
  | 0, p => (p, false)
  | fuel + 1, p =>
    if p.status == .in_progress then
      match passOnce runner (p.steps.map (fun e => e.1)) p false with
      | (p2, true) => execLoop runner fuel p2
      | (p2, false) => (p2, true)
    else (p, true)

/-- The state after `pipeline.start()` and the first phase of
`execute_pipeline` (executing every step with no dependencies). -/
def phase1 (runner : Nat → Bool) (pipeline : Pipeline) : Pipeline :=
  runNoDeps runner (pipeline.start.steps.map (fun e => e.1)) pipeline.start

/-- The state and termination flag after the `while` loop of
`execute_pipeline`.  A pass of the loop that changes anything completes at
least one pending step, so `steps.length + 1` passes are enough whenever the
Python loop terminates; the flag records whether the loop really exited by
its own condition. -/
def loopResult (runner : Nat → Bool) (pipeline : Pipeline) : Pipeline × Bool :=
  execLoop runner ((phase1 runner pipeline).steps.length + 1)
    (phase1 runner pipeline)

/-- `PipelineExecutor.execute_pipeline` plus the loop-termination flag. -/
def executePipelineAux (runner : Nat → Bool) (pipeline : Pipeline) :
    (Bool × Pipeline) × Bool :=
  (((loopResult runner pipeline).1.status == .succeeded,
    (loopResult runner pipeline).1),
   (loopResult runner pipeline).2)

/-- `PipelineExecutor.execute_pipeline`: Python return value and the mutated
pipeline. -/
def executePipeline (runner : Nat → Bool) (pipeline : Pipeline) :
    Bool × Pipeline :=
  (executePipelineAux runner pipeline).1

/-- The step execution realised by the source itself: the command execution
is simulated and always succeeds. -/
def srcRunner : Nat → Bool := fun _ => true

/-- `StepTemplate` entry of `PipelineTemplate.steps` (the dicts appended by
`add_step_template`). -/
structure StepTemplate where
  name : String
  stage : PipelineStage
  command_template : String
  dependencies : List String
  deriving DecidableEq, Repr

/-- `PipelineTemplate`. -/
structure PipelineTemplate where
  name : String
  description : String
  steps : List StepTemplate
  deriving DecidableEq, Repr

/-- First loop of `create_pipeline`: substitute varsMap, create the steps
with fresh sequential ids (modelling uuid4 freshness), append each to the
pipeline's step map (`add_step`), and record `step_id_map[name] = step.id`. -/
def buildSteps (varsMap : List (String × String)) :
    List StepTemplate → List (Nat × PipelineStep) → List (String × Nat) → Nat →
    List (Nat × PipelineStep) × List (String × Nat)
  | [], steps, idMap, _ => (steps, idMap)
  | st :: rest, steps, idMap, next =>
    let step : PipelineStep :=
      { name := st.name
        stage := st.stage
        command := substituteCommand varsMap st.command_template
        dependencies := []
        status := .pending
        logs := ""
        started_at := none
        completed_at := none }
    buildSteps varsMap rest (steps ++ [(next, step)])
      (dictUpd idMap st.name next) (next + 1)

/-- Second loop of `create_pipeline`: pair the i-th created step
(`list(pipeline.steps.keys())[i]`) with the i-th step template and resolve
its dependency names through `step_id_map`, silently dropping names not in
the map (`... for dep_name in deps if dep_name in step_id_map`).
The two lists always have equal length when called from `createPipeline`. -/
def resolveDeps (idMap : List (String × Nat)) :
    List (Nat × PipelineStep) → List StepTemplate → List (Nat × PipelineStep)
  | [], _ => []
  | _ :: _, [] => []
  | (id, step) :: steps, st :: rest =>
    (id, { step with dependencies := st.dependencies.filterMap (fun n => idMap.lookup n) })
      :: resolveDeps idMap steps rest

/-- The step list and the `step_id_map` built by the first loop of
`create_pipeline`. -/
def builtSteps (t : PipelineTemplate) (app_id version : String)
    (vars : List (String × String)) :
    List (Nat × PipelineStep) × List (String × Nat) :=
  buildSteps (mergeVars vars app_id version) t.steps [] [] 0

/-- `PipelineTemplate.create_pipeline`, with the post-call state of the
caller-supplied `vars` dict as second component: `variables or {}`
keeps the caller's dict object when it is non-empty, so `variables.update`
then mutates it in place; an empty (or absent) caller dict is replaced by a
fresh dict and the caller's object is untouched. -/
def createPipelineVars (t : PipelineTemplate) (app_id version : String)
    (vars : List (String × String)) : Pipeline × List (String × String) :=
  ({ name := t.name
     app_id := app_id
     version := version
     steps := resolveDeps (builtSteps t app_id version vars).2
       (builtSteps t app_id version vars).1 t.steps
     status := .pending
     created_at := some ()
     updated_at := some ()
     started_at := none
     completed_at := none },
   if vars.isEmpty then vars else mergeVars vars app_id version)

/-- `PipelineTemplate.create_pipeline`, returned pipeline only. -/
def createPipeline (t : PipelineTemplate) (app_id version : String)
    (vars : List (String × String)) : Pipeline :=
  (createPipelineVars t app_id version vars).1

/-- The dependency condition guarding `step.start()` in `execute_step`,
as a proposition: every dependency id of the step maps to a step of the
pipeline whose status is "succeeded". -/
def depsSatisfied (p : Pipeline) (step : PipelineStep) : Prop :=
  ∀ dep_id ∈ step.dependencies,
    (p.findStep dep_id).map (fun d => d.status) = some .succeeded

instance (p : Pipeline) (step : PipelineStep) : Decidable (depsSatisfied p step) := by
  unfold depsSatisfied; infer_instance

/-- A step is blocked when some dependency id maps to a step that is not
succeeded (the shape of an unsatisfiable dependency: a cycle, or a
dependency on a step that can never succeed). -/
def blockedStep (p : Pipeline) (step : PipelineStep) : Bool :=
  step.dependencies.any (fun dep_id =>
    match p.findStep dep_id with
    | some dep_step => !(dep_step.status == .succeeded)
    | none => false)

/-- Every dependency id of every step is a key of the step map. -/
def NoDangling (p : Pipeline) : Prop :=
  ∀ e ∈ p.steps, ∀ d ∈ e.2.dependencies, (p.findStep d).isSome = true

instance (p : Pipeline) : Decidable (NoDangling p) := by
  unfold NoDangling; infer_instance

/-- Acyclicity of the dependency graph, witnessed by a rank function that
strictly decreases along dependency edges. -/
def Ranked (rank : Nat → Nat) (p : Pipeline) : Prop :=
  ∀ e ∈ p.steps, ∀ d ∈ e.2.dependencies, rank d < rank e.1

instance (rank : Nat → Nat) (p : Pipeline) : Decidable (Ranked rank p) := by
  unfold Ranked; infer_instance

/-- Step-map keys are pairwise distinct (automatic for a Python dict, and for
pipelines built by `createPipeline`; an artefact of the association-list
model). -/
def KeysNodup (p : Pipeline) : Prop :=
  (p.steps.map (fun e => e.1)).Nodup

instance (p : Pipeline) : Decidable (KeysNodup p) := by
  unfold KeysNodup; infer_instance

/-- Under the source's always-successful step execution every step is either
still pending or succeeded. -/
def PendSucc (p : Pipeline) : Prop :=
  ∀ e ∈ p.steps, e.2.status = .pending ∨ e.2.status = .succeeded

/-- Under the source's always-successful step execution, the pipeline status
leaves IN_PROGRESS only once every step is complete. -/
def StopTerminal (p : Pipeline) : Prop :=
  p.status ≠ .in_progress → p.allComplete = true

/-- Execution invariant for `srcRunner` runs of a fresh acyclic pipeline. -/
def ExecInv (rank : Nat → Nat) (p : Pipeline) : Prop :=
  KeysNodup p ∧ NoDangling p ∧ Ranked rank p ∧ PendSucc p ∧ StopTerminal p

/-- Whenever every step is complete, the pipeline has been completed with
the status derived from the step outcomes, and `completed_at` is recorded. -/
def ProperlyCompleted (p : Pipeline) : Prop :=
  p.allComplete = true →
    p.status = (if p.anyFailed then PipelineStatus.failed else .succeeded)
    ∧ p.completed_at = some ()

/-- Number of pending steps. -/
def pendingCount (p : Pipeline) : Nat :=
  p.steps.countP (fun e => e.2.status == .pending)

/-! Concrete fixtures. -/

/-- A `PipelineStep` as `PipelineStep.__init__` builds it. -/
def mkStep (nm : String) (deps : List Nat) : PipelineStep :=
  { name := nm, stage := .build, command := "cmd", dependencies := deps,
    status := .pending, logs := "", started_at := none, completed_at := none }

/-- A `Pipeline` as `Pipeline.__init__` plus `add_step` calls build it. -/
def mkPipe (steps : List (Nat × PipelineStep)) : Pipeline :=
  { name := "p", app_id := "app-123", version := "1.0.0", steps := steps,
    status := .pending, created_at := some (), updated_at := some (),
    started_at := none, completed_at := none }

/-- Step B of `badDepPipeline`: depends on step 0, which is still pending. -/
def stepWithPendingDep : PipelineStep := mkStep "B" [0]

/-- Two steps where step 1 depends on the still-pending step 0. -/
def badDepPipeline : Pipeline :=
  mkPipe [(0, mkStep "A" []), (1, stepWithPendingDep)]

/-- Two steps depending on each other: a dependency cycle. -/
def cyclePipeline : Pipeline :=
  mkPipe [(0, mkStep "A" [1]), (1, mkStep "B" [0])]

/-- The diamond A → B, A → C, B → D, C → D (ids 0,1,2,3). -/
def diamondPipeline : Pipeline :=
  mkPipe [(0, mkStep "A" []), (1, mkStep "B" [0]),
          (2, mkStep "C" [0]), (3, mkStep "D" [1, 2])]

/-- Step runner for the diamond scenario: executing B (id 1) fails, every
other step succeeds. -/
def diamondRunner : Nat → Bool := fun id => id != 1

/-- A single step with no dependencies. -/
def singleStepPipeline : Pipeline := mkPipe [(0, mkStep "A" [])]

/-- A two-step chain: 1 depends on 0. -/
def chainPipeline : Pipeline := mkPipe [(0, mkStep "A" []), (1, mkStep "B" [0])]

/-- A pipeline with no steps at all. -/
def emptyPipeline : Pipeline := mkPipe []

/-- Template with the spec's substitution example command. -/
def tmplSubst : PipelineTemplate :=
  { name := "t", description := "d",
    steps := [{ name := "deploy", stage := .deploy,
                command_template := "deploy $\x7bAPP_ID\x7d $\x7bVERSION\x7d $\x7bENV\x7d",
                dependencies := [] }] }

/-- Template whose command holds a placeholder that never gets a binding. -/
def tmplUnbound : PipelineTemplate :=
  { name := "t", description := "d",
    steps := [{ name := "run", stage := .build,
                command_template := "run $\x7bFOO\x7d",
                dependencies := [] }] }

/-- Template used to observe the implicit APP_ID / VERSION bindings. -/
def tmplOverride : PipelineTemplate :=
  { name := "t", description := "d",
    steps := [{ name := "run", stage := .build,
                command_template := "run $\x7bAPP_ID\x7d $\x7bVERSION\x7d",
                dependencies := [] }] }

/-- Template with a single step X whose dependsOn names an undeclared Y. -/
def tmplDangling : PipelineTemplate :=
  { name := "t", description := "d",
    steps := [{ name := "X", stage := .build, command_template := "run",
                dependencies := ["Y"] }] }

/-! Association-list lemmas. -/

theorem lookup_mem {α β : Type} [BEq α] [LawfulBEq α] {l : List (α × β)} {k : α}
    {b : β} (h : l.lookup k = some b) : (k, b) ∈ l := by
  induction l with
  | nil => simp at h
  | cons e t ih =>
    obtain ⟨k', v'⟩ := e
    rw [List.lookup_cons] at h
    by_cases hk : (k == k') = true
    · rw [hk] at h
      obtain rfl := eq_of_beq hk
      obtain rfl : v' = b := by simpa using h
      exact List.mem_cons_self _ _
    · rw [Bool.not_eq_true] at hk
      rw [hk] at h
      exact List.mem_cons_of_mem _ (ih h)

theorem lookup_cons_if {α β : Type} [BEq α] (k k' : α) (v : β) (t : List (α × β)) :
    ((k', v) :: t).lookup k = if k == k' then some v else t.lookup k := by
  rw [List.lookup_cons]
  cases k == k' <;> simp

theorem lookup_isSome_eq_keys_any {α β : Type} [BEq α] (l : List (α × β)) (k : α) :
    (l.lookup k).isSome = (l.map Prod.fst).any (fun a => k == a) := by
  induction l with
  | nil => rfl
  | cons e t ih =>
    obtain ⟨k', v'⟩ := e
    rw [lookup_cons_if]
    cases h : k == k' <;> simp [h, ih]

theorem lookup_isSome_congr_keys {α β γ : Type} [BEq α]
    {l₁ : List (α × β)} {l₂ : List (α × γ)}
    (hk : l₁.map Prod.fst = l₂.map Prod.fst) (k : α) :
    (l₁.lookup k).isSome = (l₂.lookup k).isSome := by
  rw [lookup_isSome_eq_keys_any, lookup_isSome_eq_keys_any, hk]

theorem lookup_replace_self {β : Type} {l : List (Nat × β)} {id : Nat} (s : β)
    (h : (l.lookup id).isSome = true) :
    (l.map (fun e => if e.1 == id then (id, s) else e)).lookup id = some s := by
  induction l with
  | nil => simp at h
  | cons e t ih =>
    obtain ⟨k', v'⟩ := e
    by_cases hk : k' = id
    · subst hk
      simp [lookup_cons_if]
    · have hk1 : (k' == id) = false := beq_eq_false_iff_ne.mpr hk
      have hk2 : (id == k') = false := beq_eq_false_iff_ne.mpr (Ne.symm hk)
      rw [lookup_cons_if, hk2] at h
      simp only [Bool.false_eq_true, if_false] at h
      simp only [List.map_cons, hk1, Bool.false_eq_true, if_false]
      rw [lookup_cons_if, hk2]
      simp only [Bool.false_eq_true, if_false]
      exact ih h

theorem lookup_replace_ne {β : Type} {l : List (Nat × β)} {id k : Nat} (s : β)
    (h : k ≠ id) :
    (l.map (fun e => if e.1 == id then (id, s) else e)).lookup k = l.lookup k := by
  induction l with
  | nil => rfl
  | cons e t ih =>
    obtain ⟨k', v'⟩ := e
    by_cases hk : k' = id
    · subst hk
      have hne : (k == k') = false := beq_eq_false_iff_ne.mpr h
      simp only [List.map_cons, beq_self_eq_true, if_true]
      rw [lookup_cons_if, lookup_cons_if, hne]
      simp only [Bool.false_eq_true, if_false]
      exact ih
    · have hk1 : (k' == id) = false := beq_eq_false_iff_ne.mpr hk
      simp only [List.map_cons, hk1, Bool.false_eq_true, if_false]
      rw [lookup_cons_if, lookup_cons_if]
      cases hkk : k == k'
      · simp only [Bool.false_eq_true, if_false]
        exact ih
      · simp

theorem lookup_of_mem_nodup {β : Type} {l : List (Nat × β)}
    (hnd : (l.map Prod.fst).Nodup) {e : Nat × β} (he : e ∈ l) :
    l.lookup e.1 = some e.2 := by
  induction l with
  | nil => simp at he
  | cons f t ih =>
    simp only [List.map_cons, List.nodup_cons] at hnd
    rcases List.mem_cons.mp he with rfl | hm
    · rw [← @Prod.mk.eta _ _ e, lookup_cons_if]
      simp
    · obtain ⟨k', v'⟩ := f
      have hne : (e.1 == k') = false := by
        rw [beq_eq_false_iff_ne]
        intro hc
        exact hnd.1 (hc ▸ (List.mem_map.mpr ⟨e, hm, rfl⟩))
      rw [lookup_cons_if, hne]
      simp only [Bool.false_eq_true, if_false]
      exact ih hnd.2 hm

theorem exists_min_rank {β : Type} (rank : Nat → Nat) {l : List (Nat × β)}
    (h : l ≠ []) : ∃ e ∈ l, ∀ f ∈ l, rank e.1 ≤ rank f.1 := by
  induction l with
  | nil => exact absurd rfl h
  | cons a t ih =>
    cases t with
    | nil =>
      refine ⟨a, List.mem_cons_self _ _, ?_⟩
      intro f hf
      rcases List.mem_cons.mp hf with rfl | hf
      · exact Nat.le_refl _
      · simp at hf
    | cons b t' =>
      obtain ⟨e, hme, hmin⟩ := ih (by simp)
      by_cases hc : rank a.1 ≤ rank e.1
      · refine ⟨a, List.mem_cons_self _ _, ?_⟩
        intro f hf
        rcases List.mem_cons.mp hf with rfl | hf
        · exact Nat.le_refl _
        · exact Nat.le_trans hc (hmin f hf)
      · refine ⟨e, List.mem_cons_of_mem _ hme, ?_⟩
        intro f hf
        rcases List.mem_cons.mp hf with rfl | hf
        · exact Nat.le_of_lt (Nat.lt_of_not_le hc)
        · exact hmin f hf

/-! Pipeline operation facts. -/

theorem start_steps (p : Pipeline) : (p.start).steps = p.steps := rfl

theorem start_status (p : Pipeline) : (p.start).status = .in_progress := rfl

theorem start_completed_at (p : Pipeline) :
    (p.start).completed_at = p.completed_at := rfl

theorem complete_steps (p : Pipeline) (st : PipelineStatus) :
    (p.complete st).steps = p.steps := rfl

theorem complete_status (p : Pipeline) (st : PipelineStatus) :
    (p.complete st).status = st := rfl

theorem complete_completed_at (p : Pipeline) (st : PipelineStatus) :
    (p.complete st).completed_at = some () := rfl

theorem setStep_status (p : Pipeline) (id : Nat) (s : PipelineStep) :
    (p.setStep id s).status = p.status := rfl

theorem setStep_completed_at (p : Pipeline) (id : Nat) (s : PipelineStep) :
    (p.setStep id s).completed_at = p.completed_at := rfl

theorem allComplete_complete (p : Pipeline) (st : PipelineStatus) :
    (p.complete st).allComplete = p.allComplete := rfl

theorem anyFailed_complete (p : Pipeline) (st : PipelineStatus) :
    (p.complete st).anyFailed = p.anyFailed := rfl

theorem allComplete_start (p : Pipeline) : (p.start).allComplete = p.allComplete := rfl

theorem findStep_start (p : Pipeline) (id : Nat) :
    (p.start).findStep id = p.findStep id := rfl

theorem findStep_complete (p : Pipeline) (st : PipelineStatus) (id : Nat) :
    (p.complete st).findStep id = p.findStep id := rfl

theorem pendingCount_complete (p : Pipeline) (st : PipelineStatus) :
    pendingCount (p.complete st) = pendingCount p := rfl

theorem pendingCount_start (p : Pipeline) : pendingCount (p.start) = pendingCount p := rfl

theorem keys_replace {β : Type} (l : List (Nat × β)) (id : Nat) (s : β) :
    (l.map (fun e => if e.1 == id then (id, s) else e)).map Prod.fst
      = l.map Prod.fst := by
  induction l with
  | nil => rfl
  | cons e t ih =>
    simp only [List.map_cons, ih]
    by_cases h : (e.1 == id) = true
    · obtain rfl := eq_of_beq h
      simp [h]
    · rw [Bool.not_eq_true] at h
      simp [h]

theorem setStep_keys (p : Pipeline) (id : Nat) (s : PipelineStep) :
    (p.setStep id s).steps.map Prod.fst = p.steps.map Prod.fst :=
  keys_replace _ _ _

theorem findStep_setStep_self {p : Pipeline} {id : Nat} (s : PipelineStep)
    (h : (p.findStep id).isSome = true) : (p.setStep id s).findStep id = some s :=
  lookup_replace_self s h

theorem findStep_setStep_ne {p : Pipeline} {id k : Nat} (s : PipelineStep)
    (h : k ≠ id) : (p.setStep id s).findStep k = p.findStep k :=
  lookup_replace_ne s h

theorem findStep_setStep_isSome (p : Pipeline) (id : Nat) (s : PipelineStep)
    (k : Nat) : ((p.setStep id s).findStep k).isSome = (p.findStep k).isSome :=
  lookup_isSome_congr_keys (setStep_keys p id s) k

theorem mem_setStep {p : Pipeline} {id : Nat} {s : PipelineStep}
    {e : Nat × PipelineStep} (h : e ∈ (p.setStep id s).steps) :
    e = (id, s) ∨ e ∈ p.steps := by
  obtain ⟨a, ha, rfl⟩ := List.mem_map.mp h
  by_cases hc : (a.1 == id) = true
  · left
    simp [hc]
  · right
    rw [Bool.not_eq_true] at hc
    simpa [hc] using ha

theorem allComplete_setStep_succ {p : Pipeline} {id : Nat} {s : PipelineStep}
    (hs : s.status = .succeeded) (h : p.allComplete = true) :
    (p.setStep id s).allComplete = true := by
  rw [Pipeline.allComplete, List.all_eq_true]
  rw [Pipeline.allComplete, List.all_eq_true] at h
  intro e he
  rcases mem_setStep he with rfl | he
  · simp [hs]
  · exact h e he

theorem anyFailed_of_mem {p : Pipeline} {e : Nat × PipelineStep}
    (he : e ∈ p.steps) (hf : e.2.status = .failed) : p.anyFailed = true := by
  rw [Pipeline.anyFailed, List.any_eq_true]
  exact ⟨e, he, by simp [hf]⟩

theorem readyStrict_iff (p : Pipeline) (step : PipelineStep) :
    readyStrict p step = true ↔ depsSatisfied p step := by
  rw [readyStrict, List.all_eq_true, depsSatisfied]
  constructor
  · intro h d hd
    have hh := h d hd
    cases hf : p.findStep d
    · rw [hf] at hh
      simp at hh
    · rw [hf] at hh
      simpa using hh
  · intro h d hd
    have hh := h d hd
    cases hf : p.findStep d
    · rw [hf] at hh
      simp at hh
    · rw [hf] at hh
      simpa using hh

theorem ready_aux (p : Pipeline) (ds : List Nat)
    (h : ∀ d ∈ ds, (p.findStep d).isSome = true) :
    ds.all (fun dep_id => match p.findStep dep_id with
      | some dep_step => dep_step.status == StepStatus.succeeded
      | none => true)
    = ds.all (fun dep_id => match p.findStep dep_id with
      | some dep_step => dep_step.status == StepStatus.succeeded
      | none => false) := by
  induction ds with
  | nil => rfl
  | cons d t ih =>
    simp only [List.all_cons]
    have hd := h d (List.mem_cons_self d t)
    cases hf : p.findStep d
    · rw [hf] at hd
      simp at hd
    · rw [ih (fun x hx => h x (List.mem_cons_of_mem _ hx))]

theorem readyFiltered_eq_strict {p : Pipeline} {step : PipelineStep}
    (h : ∀ d ∈ step.dependencies, (p.findStep d).isSome = true) :
    readyFiltered p step = readyStrict p step := by
  rw [readyFiltered, readyStrict]
  exact ready_aux p step.dependencies h

/-! executeStep case analysis. -/

theorem succStep_status (step : PipelineStep) : (succStep step).status = .succeeded := rfl

theorem failStep_status (step : PipelineStep) : (failStep step).status = .failed := rfl

theorem succStep_deps (step : PipelineStep) :
    (succStep step).dependencies = step.dependencies := rfl

theorem failStep_deps (step : PipelineStep) :
    (failStep step).dependencies = step.dependencies := rfl

theorem executeStep_shape (runner : Nat → Bool) (p : Pipeline) (id : Nat) :
    (p.findStep id = none ∧ executeStep runner p id = (false, p))
    ∨ (∃ step, p.findStep id = some step ∧ readyStrict p step = false ∧
        executeStep runner p id = (false, p))
    ∨ (∃ step, p.findStep id = some step ∧ readyStrict p step = true ∧
        runner id = true ∧
        (p.setStep id (succStep step)).allComplete = true ∧
        executeStep runner p id =
          (true, (p.setStep id (succStep step)).complete
            (if (p.setStep id (succStep step)).anyFailed then .failed else .succeeded)))
    ∨ (∃ step, p.findStep id = some step ∧ readyStrict p step = true ∧
        runner id = true ∧
        (p.setStep id (succStep step)).allComplete = false ∧
        executeStep runner p id = (true, p.setStep id (succStep step)))
    ∨ (∃ step, p.findStep id = some step ∧ readyStrict p step = true ∧
        runner id = false ∧
        executeStep runner p id =
          (false, (p.setStep id (failStep step)).complete .failed)) := by
  unfold executeStep
  cases hf : p.findStep id
  · left
    exact ⟨rfl, rfl⟩
  case some step =>
    cases hr : readyStrict p step
    · right; left
      exact ⟨step, rfl, hr, by simp [hr]⟩
    · cases hrun : runner id
      · right; right; right; right
        exact ⟨step, rfl, hr, rfl, by simp [hr]⟩
      · cases hac : (p.setStep id (succStep step)).allComplete
        · right; right; right; left
          exact ⟨step, rfl, hr, rfl, hac, by simp [hr, hac]⟩
        · right; right; left
          exact ⟨step, rfl, hr, rfl, hac, by simp [hr, hac]⟩

theorem snd_pair (b : Bool) (q : Pipeline) : (b, q).2 = q := rfl

theorem executeStep_pc (runner : Nat → Bool) (p : Pipeline) (id : Nat)
    (h : ProperlyCompleted p) : ProperlyCompleted (executeStep runner p id).2 := by
  rcases executeStep_shape runner p id with ⟨hf, heq⟩ | ⟨step, hf, hr, heq⟩ |
    ⟨step, hf, hr, hrun, hac, heq⟩ | ⟨step, hf, hr, hrun, hac, heq⟩ |
    ⟨step, hf, hr, hrun, heq⟩
  · rw [heq]
    exact h
  · rw [heq]
    exact h
  · rw [heq]
    intro _
    exact ⟨rfl, rfl⟩
  · rw [heq]
    intro hca
    exact absurd hca (by simp [hac])
  · rw [heq]
    have hmem : (id, failStep step) ∈ (p.setStep id (failStep step)).steps :=
      lookup_mem (findStep_setStep_self (failStep step) (by rw [hf]; rfl))
    have haf : (p.setStep id (failStep step)).anyFailed = true :=
      anyFailed_of_mem hmem rfl
    intro _
    constructor
    · show ((p.setStep id (failStep step)).complete .failed).status = _
      rw [complete_status, anyFailed_complete, haf]
      rfl
    · rfl

theorem executeStep_keys (runner : Nat → Bool) (p : Pipeline) (id : Nat) :
    (executeStep runner p id).2.steps.map Prod.fst = p.steps.map Prod.fst := by
  rcases executeStep_shape runner p id with ⟨hf, heq⟩ | ⟨step, hf, hr, heq⟩ |
    ⟨step, hf, hr, hrun, hac, heq⟩ | ⟨step, hf, hr, hrun, hac, heq⟩ |
    ⟨step, hf, hr, hrun, heq⟩
  · rw [heq]
  · rw [heq]
  · rw [heq, snd_pair, complete_steps]
    exact setStep_keys p id (succStep step)
  · rw [heq, snd_pair]
    exact setStep_keys p id (succStep step)
  · rw [heq, snd_pair, complete_steps]
    exact setStep_keys p id (failStep step)

theorem executeStep_findStep_isSome (runner : Nat → Bool) (p : Pipeline)
    (id k : Nat) :
    ((executeStep runner p id).2.findStep k).isSome = (p.findStep k).isSome :=
  lookup_isSome_congr_keys (executeStep_keys runner p id) k

theorem findStep_map_deps_setStep {p : Pipeline} {id : Nat} {step s : PipelineStep}
    (hf : p.findStep id = some step) (hdeps : s.dependencies = step.dependencies)
    (k : Nat) :
    ((p.setStep id s).findStep k).map (fun x => x.dependencies)
      = (p.findStep k).map (fun x => x.dependencies) := by
  by_cases hk : k = id
  · subst hk
    rw [findStep_setStep_self s (by rw [hf]; rfl), hf]
    simp [hdeps]
  · rw [findStep_setStep_ne s hk]

theorem executeStep_deps (runner : Nat → Bool) (p : Pipeline) (id k : Nat) :
    ((executeStep runner p id).2.findStep k).map (fun x => x.dependencies)
      = (p.findStep k).map (fun x => x.dependencies) := by
  rcases executeStep_shape runner p id with ⟨hf, heq⟩ | ⟨step, hf, hr, heq⟩ |
    ⟨step, hf, hr, hrun, hac, heq⟩ | ⟨step, hf, hr, hrun, hac, heq⟩ |
    ⟨step, hf, hr, hrun, heq⟩
  · rw [heq]
  · rw [heq]
  · rw [heq, snd_pair]
    show (((p.setStep id (succStep step)).complete _).findStep k).map _ = _
    rw [findStep_complete]
    exact findStep_map_deps_setStep hf (succStep_deps step) k
  · rw [heq, snd_pair]
    exact findStep_map_deps_setStep hf (succStep_deps step) k
  · rw [heq, snd_pair]
    show (((p.setStep id (failStep step)).complete _).findStep k).map _ = _
    rw [findStep_complete]
    exact findStep_map_deps_setStep hf (failStep_deps step) k

theorem executeStep_mem {runner : Nat → Bool} {p : Pipeline} {id : Nat}
    {e : Nat × PipelineStep} (he : e ∈ (executeStep runner p id).2.steps) :
    e ∈ p.steps
    ∨ (∃ step, p.findStep id = some step ∧
        ((e = (id, succStep step) ∧ runner id = true)
          ∨ (e = (id, failStep step) ∧ runner id = false))) := by
  rcases executeStep_shape runner p id with ⟨hf, heq⟩ | ⟨step, hf, hr, heq⟩ |
    ⟨step, hf, hr, hrun, hac, heq⟩ | ⟨step, hf, hr, hrun, hac, heq⟩ |
    ⟨step, hf, hr, hrun, heq⟩
  · rw [heq] at he
    exact Or.inl he
  · rw [heq] at he
    exact Or.inl he
  · rw [heq] at he
    have he' : e ∈ (p.setStep id (succStep step)).steps := he
    rcases mem_setStep he' with rfl | hm
    · exact Or.inr ⟨step, hf, Or.inl ⟨rfl, hrun⟩⟩
    · exact Or.inl hm
  · rw [heq] at he
    have he' : e ∈ (p.setStep id (succStep step)).steps := he
    rcases mem_setStep he' with rfl | hm
    · exact Or.inr ⟨step, hf, Or.inl ⟨rfl, hrun⟩⟩
    · exact Or.inl hm
  · rw [heq] at he
    have he' : e ∈ (p.setStep id (failStep step)).steps := he
    rcases mem_setStep he' with rfl | hm
    · exact Or.inr ⟨step, hf, Or.inr ⟨rfl, hrun⟩⟩
    · exact Or.inl hm

theorem executeStep_noDangling {runner : Nat → Bool} {p : Pipeline} {id : Nat}
    (h : NoDangling p) : NoDangling (executeStep runner p id).2 := by
  intro e he d hd
  rw [executeStep_findStep_isSome]
  rcases executeStep_mem he with hmem | ⟨step, hf, hcase⟩
  · exact h e hmem d hd
  · have hsm : (id, step) ∈ p.steps := lookup_mem hf
    rcases hcase with ⟨rfl, _⟩ | ⟨rfl, _⟩
    · exact h _ hsm d (by simpa [succStep_deps] using hd)
    · exact h _ hsm d (by simpa [failStep_deps] using hd)

theorem executeStep_ranked {runner : Nat → Bool} {rank : Nat → Nat} {p : Pipeline}
    {id : Nat} (h : Ranked rank p) : Ranked rank (executeStep runner p id).2 := by
  intro e he d hd
  rcases executeStep_mem he with hmem | ⟨step, hf, hcase⟩
  · exact h e hmem d hd
  · have hsm : (id, step) ∈ p.steps := lookup_mem hf
    rcases hcase with ⟨rfl, _⟩ | ⟨rfl, _⟩
    · exact h _ hsm d (by simpa [succStep_deps] using hd)
    · exact h _ hsm d (by simpa [failStep_deps] using hd)

theorem executeStep_keysNodup {runner : Nat → Bool} {p : Pipeline} {id : Nat}
    (h : KeysNodup p) : KeysNodup (executeStep runner p id).2 := by
  unfold KeysNodup at h ⊢
  rw [executeStep_keys]
  exact h

theorem executeStep_pendSucc {p : Pipeline} {id : Nat} (h : PendSucc p) :
    PendSucc (executeStep srcRunner p id).2 := by
  intro e he
  rcases executeStep_mem he with hmem | ⟨step, hf, hcase⟩
  · exact h e hmem
  · rcases hcase with ⟨rfl, _⟩ | ⟨rfl, hrun⟩
    · right
      rfl
    · simp [srcRunner] at hrun

theorem executeStep_stopTerminal {p : Pipeline} {id : Nat}
    (h : StopTerminal p) : StopTerminal (executeStep srcRunner p id).2 := by
  rcases executeStep_shape srcRunner p id with ⟨hf, heq⟩ | ⟨step, hf, hr, heq⟩ |
    ⟨step, hf, hr, hrun, hac, heq⟩ | ⟨step, hf, hr, hrun, hac, heq⟩ |
    ⟨step, hf, hr, hrun, heq⟩
  · rw [heq]
    exact h
  · rw [heq]
    exact h
  · rw [heq]
    intro _
    exact hac
  · rw [heq]
    intro hne
    have hp : p.status ≠ .in_progress := hne
    exact allComplete_setStep_succ rfl (h hp)
  · simp [srcRunner] at hrun

theorem executeStep_inv {rank : Nat → Nat} {p : Pipeline} {id : Nat}
    (h : ExecInv rank p) : ExecInv rank (executeStep srcRunner p id).2 := by
  obtain ⟨h1, h2, h3, h4, h5⟩ := h
  exact ⟨executeStep_keysNodup h1, executeStep_noDangling h2,
    executeStep_ranked h3, executeStep_pendSucc h4, executeStep_stopTerminal h5⟩

/-! Pending-step counting. -/

theorem countP_replace_le {β : Type} (l : List (Nat × β)) (id : Nat) (s : β)
    (pred : Nat × β → Bool) (hs : pred (id, s) = false) :
    (l.map (fun e => if e.1 == id then (id, s) else e)).countP pred
      ≤ l.countP pred := by
  induction l with
  | nil => exact Nat.le_refl _
  | cons e t ih =>
    simp only [List.map_cons, List.countP_cons]
    by_cases hc : (e.1 == id) = true
    · rw [if_pos hc, hs]
      simp only [Bool.false_eq_true, if_false]
      omega
    · rw [if_neg hc]
      omega

theorem countP_replace_lt {β : Type} {l : List (Nat × β)} {id : Nat} {s : β}
    {pred : Nat × β → Bool} (hs : pred (id, s) = false)
    {b : β} (hlk : l.lookup id = some b) (hb : pred (id, b) = true) :
    (l.map (fun e => if e.1 == id then (id, s) else e)).countP pred
      < l.countP pred := by
  induction l with
  | nil => simp at hlk
  | cons e t ih =>
    obtain ⟨k', v'⟩ := e
    rw [lookup_cons_if] at hlk
    by_cases hk : (id == k') = true
    · rw [if_pos hk] at hlk
      obtain rfl := eq_of_beq hk
      obtain rfl : v' = b := by simpa using hlk
      simp only [List.map_cons, List.countP_cons]
      rw [if_pos (show (((id : Nat), v').1 == id) = true by simp), hs, hb]
      have hle := countP_replace_le t id s pred hs
      simp only [Bool.false_eq_true, if_false, eq_self_iff_true, if_true]
      omega
    · rw [if_neg hk] at hlk
      have hne : k' ≠ id := by
        intro hcc
        exact hk (by rw [hcc]; simp)
      simp only [List.map_cons, List.countP_cons]
      rw [if_neg (by simp [hne] : ¬ (((k', v') : Nat × β).1 == id) = true)]
      have := ih hlk
      omega

theorem pendingCount_setStep_le {p : Pipeline} {id : Nat} {s : PipelineStep}
    (hs : (s.status == StepStatus.pending) = false) :
    pendingCount (p.setStep id s) ≤ pendingCount p :=
  countP_replace_le p.steps id s (fun e => e.2.status == .pending) hs

theorem pendingCount_setStep_lt {p : Pipeline} {id : Nat} {s step : PipelineStep}
    (hs : (s.status == StepStatus.pending) = false)
    (hf : p.findStep id = some step) (hp : step.status = .pending) :
    pendingCount (p.setStep id s) < pendingCount p :=
  countP_replace_lt hs hf (by simp [hp])

theorem executeStep_pending_le (p : Pipeline) (id : Nat) :
    pendingCount (executeStep srcRunner p id).2 ≤ pendingCount p := by
  rcases executeStep_shape srcRunner p id with ⟨hf, heq⟩ | ⟨step, hf, hr, heq⟩ |
    ⟨step, hf, hr, hrun, hac, heq⟩ | ⟨step, hf, hr, hrun, hac, heq⟩ |
    ⟨step, hf, hr, hrun, heq⟩
  · rw [heq]
  · rw [heq]
  · rw [heq, snd_pair]
    exact pendingCount_setStep_le rfl
  · rw [heq, snd_pair]
    exact pendingCount_setStep_le rfl
  · simp [srcRunner] at hrun

theorem executeStep_pending_lt {p : Pipeline} {id : Nat} {step : PipelineStep}
    (hf : p.findStep id = some step) (hp : step.status = .pending)
    (hr : readyStrict p step = true) :
    pendingCount (executeStep srcRunner p id).2 < pendingCount p := by
  rcases executeStep_shape srcRunner p id with ⟨hf', heq⟩ | ⟨step', hf', hr', heq⟩ |
    ⟨step', hf', hr', hrun, hac, heq⟩ | ⟨step', hf', hr', hrun, hac, heq⟩ |
    ⟨step', hf', hr', hrun, heq⟩
  · rw [hf] at hf'
    exact absurd hf' (by simp)
  · rw [hf] at hf'
    obtain rfl : step = step' := by simpa using hf'
    rw [hr] at hr'
    exact absurd hr' (by simp)
  · rw [hf] at hf'
    obtain rfl : step = step' := by simpa using hf'
    rw [heq, snd_pair]
    exact pendingCount_setStep_lt rfl hf hp
  · rw [hf] at hf'
    obtain rfl : step = step' := by simpa using hf'
    rw [heq, snd_pair]
    exact pendingCount_setStep_lt rfl hf hp
  · simp [srcRunner] at hrun

/-! Scheduling-loop equations. -/

theorem passOnce_nil (runner : Nat → Bool) (p : Pipeline) (prog : Bool) :
    passOnce runner [] p prog = (p, prog) := rfl

theorem passOnce_cons (runner : Nat → Bool) (id : Nat) (rest : List Nat)
    (p : Pipeline) (prog : Bool) :
    passOnce runner (id :: rest) p prog =
      match p.findStep id with
      | some step =>
        if step.status == .pending then
          if readyFiltered p step then
            passOnce runner rest (executeStep runner p id).2 true
          else passOnce runner rest p prog
        else passOnce runner rest p prog
      | none => passOnce runner rest p prog := rfl

theorem runNoDeps_cons (runner : Nat → Bool) (id : Nat) (rest : List Nat)
    (p : Pipeline) :
    runNoDeps runner (id :: rest) p =
      match p.findStep id with
      | some step =>
        if step.dependencies.isEmpty then
          runNoDeps runner rest (executeStep runner p id).2
        else runNoDeps runner rest p
      | none => runNoDeps runner rest p := rfl

theorem execLoop_succ (runner : Nat → Bool) (fuel : Nat) (p : Pipeline) :
    execLoop runner (fuel + 1) p =
      (if p.status == .in_progress then
        match passOnce runner (p.steps.map (fun e => e.1)) p false with
        | (p2, true) => execLoop runner fuel p2
        | (p2, false) => (p2, true)
      else (p, true)) := rfl

theorem passOnce_eq_exec {runner : Nat → Bool} {id : Nat} {rest : List Nat}
    {p : Pipeline} {step : PipelineStep} (prog : Bool)
    (hf : p.findStep id = some step)
    (hp : (step.status == StepStatus.pending) = true)
    (hready : readyFiltered p step = true) :
    passOnce runner (id :: rest) p prog
      = passOnce runner rest (executeStep runner p id).2 true := by
  simp [passOnce_cons, hf, hp, hready]

theorem passOnce_eq_skip {runner : Nat → Bool} {id : Nat} {rest : List Nat}
    {p : Pipeline} (prog : Bool)
    (h : p.findStep id = none ∨ ∃ step, p.findStep id = some step ∧
      ((step.status == StepStatus.pending) = false ∨ readyFiltered p step = false)) :
    passOnce runner (id :: rest) p prog = passOnce runner rest p prog := by
  rcases h with hf | ⟨step, hf, hcase⟩
  · simp [passOnce_cons, hf]
  · rcases hcase with hp | hready
    · simp [passOnce_cons, hf, hp]
    · by_cases hp : (step.status == StepStatus.pending) = true
      · simp [passOnce_cons, hf, hp, hready]
      · rw [Bool.not_eq_true] at hp
        simp [passOnce_cons, hf, hp]

theorem runNoDeps_eq_exec {runner : Nat → Bool} {id : Nat} {rest : List Nat}
    {p : Pipeline} {step : PipelineStep} (hf : p.findStep id = some step)
    (hdeps : step.dependencies.isEmpty = true) :
    runNoDeps runner (id :: rest) p
      = runNoDeps runner rest (executeStep runner p id).2 := by
  simp [runNoDeps_cons, hf, hdeps]

theorem runNoDeps_eq_skip {runner : Nat → Bool} {id : Nat} {rest : List Nat}
    {p : Pipeline}
    (h : p.findStep id = none ∨ ∃ step, p.findStep id = some step ∧
      step.dependencies.isEmpty = false) :
    runNoDeps runner (id :: rest) p = runNoDeps runner rest p := by
  rcases h with hf | ⟨step, hf, hdeps⟩
  · simp [runNoDeps_cons, hf]
  · simp [runNoDeps_cons, hf, hdeps]

theorem execLoop_eq_stop {runner : Nat → Bool} {fuel : Nat} {p : Pipeline}
    (h : (p.status == PipelineStatus.in_progress) = false) :
    execLoop runner (fuel + 1) p = (p, true) := by
  simp [execLoop_succ, h]

theorem execLoop_eq_continue {runner : Nat → Bool} {fuel : Nat} {p p2 : Pipeline}
    (hip : (p.status == PipelineStatus.in_progress) = true)
    (hpass : passOnce runner (p.steps.map (fun e => e.1)) p false = (p2, true)) :
    execLoop runner (fuel + 1) p = execLoop runner fuel p2 := by
  simp [execLoop_succ, hip, hpass]

theorem execLoop_eq_finish {runner : Nat → Bool} {fuel : Nat} {p p2 : Pipeline}
    (hip : (p.status == PipelineStatus.in_progress) = true)
    (hpass : passOnce runner (p.steps.map (fun e => e.1)) p false = (p2, false)) :
    execLoop runner (fuel + 1) p = (p2, true) := by
  simp [execLoop_succ, hip, hpass]

/-! Preservation through the scheduling loop. -/

theorem passOnce_preserve {runner : Nat → Bool} {P : Pipeline → Prop}
    (hstep : ∀ q id, P q → P (executeStep runner q id).2) :
    ∀ (ids : List Nat) (p : Pipeline) (prog : Bool),
      P p → P (passOnce runner ids p prog).1 := by
  intro ids
  induction ids with
  | nil => exact fun p prog h => h
  | cons id rest ih =>
    intro p prog h
    cases hf : p.findStep id
    · rw [passOnce_eq_skip prog (Or.inl hf)]
      exact ih p prog h
    case some step =>
      cases hp : step.status == StepStatus.pending
      · rw [passOnce_eq_skip prog (Or.inr ⟨step, hf, Or.inl hp⟩)]
        exact ih p prog h
      · cases hready : readyFiltered p step
        · rw [passOnce_eq_skip prog (Or.inr ⟨step, hf, Or.inr hready⟩)]
          exact ih p prog h
        · rw [passOnce_eq_exec prog hf hp hready]
          exact ih _ true (hstep p id h)

theorem runNoDeps_preserve {runner : Nat → Bool} {P : Pipeline → Prop}
    (hstep : ∀ q id, P q → P (executeStep runner q id).2) :
    ∀ (ids : List Nat) (p : Pipeline), P p → P (runNoDeps runner ids p) := by
  intro ids
  induction ids with
  | nil => exact fun p h => h
  | cons id rest ih =>
    intro p h
    cases hf : p.findStep id
    · rw [runNoDeps_eq_skip (Or.inl hf)]
      exact ih p h
    case some step =>
      cases hdeps : step.dependencies.isEmpty
      · rw [runNoDeps_eq_skip (Or.inr ⟨step, hf, hdeps⟩)]
        exact ih p h
      · rw [runNoDeps_eq_exec hf hdeps]
        exact ih _ (hstep p id h)

theorem execLoop_preserve {runner : Nat → Bool} {P : Pipeline → Prop}
    (hpass : ∀ ids p b, P p → P (passOnce runner ids p b).1) :
    ∀ (fuel : Nat) (p : Pipeline), P p → P (execLoop runner fuel p).1 := by
  intro fuel
  induction fuel with
  | zero => exact fun p h => h
  | succ n ih =>
    intro p h
    cases hip : p.status == PipelineStatus.in_progress
    · rw [execLoop_eq_stop hip]
      exact h
    · rcases hres : passOnce runner (p.steps.map (fun e => e.1)) p false with ⟨p2, flag⟩
      have hp2 : P p2 := by
        have := hpass (p.steps.map (fun e => e.1)) p false h
        rwa [hres] at this
      cases flag
      · rw [execLoop_eq_finish hip hres]
        exact hp2
      · rw [execLoop_eq_continue hip hres]
        exact ih p2 hp2

theorem passOnce_flag_true (runner : Nat → Bool) :
    ∀ (ids : List Nat) (p : Pipeline), (passOnce runner ids p true).2 = true := by
  intro ids
  induction ids with
  | nil => exact fun p => rfl
  | cons id rest ih =>
    intro p
    cases hf : p.findStep id
    · rw [passOnce_eq_skip true (Or.inl hf)]
      exact ih p
    case some step =>
      cases hp : step.status == StepStatus.pending
      · rw [passOnce_eq_skip true (Or.inr ⟨step, hf, Or.inl hp⟩)]
        exact ih p
      · cases hready : readyFiltered p step
        · rw [passOnce_eq_skip true (Or.inr ⟨step, hf, Or.inr hready⟩)]
          exact ih p
        · rw [passOnce_eq_exec true hf hp hready]
          exact ih _

theorem passOnce_false {runner : Nat → Bool} :
    ∀ {ids : List Nat} {p : Pipeline},
      (passOnce runner ids p false).2 = false →
      (passOnce runner ids p false).1 = p
      ∧ ∀ id ∈ ids, ∀ step, p.findStep id = some step →
          step.status = .pending → readyFiltered p step = false := by
  intro ids
  induction ids with
  | nil =>
    intro p _
    exact ⟨rfl, by simp⟩
  | cons id rest ih =>
    intro p hflag
    cases hf : p.findStep id
    · rw [passOnce_eq_skip false (Or.inl hf)] at hflag ⊢
      obtain ⟨h1, h2⟩ := ih hflag
      refine ⟨h1, ?_⟩
      intro j hj stepj hfj hpj
      rcases List.mem_cons.mp hj with rfl | hj
      · rw [hf] at hfj
        exact absurd hfj (by simp)
      · exact h2 j hj stepj hfj hpj
    case some step =>
      cases hp : step.status == StepStatus.pending
      · rw [passOnce_eq_skip false (Or.inr ⟨step, hf, Or.inl hp⟩)] at hflag ⊢
        obtain ⟨h1, h2⟩ := ih hflag
        refine ⟨h1, ?_⟩
        intro j hj stepj hfj hpj
        rcases List.mem_cons.mp hj with rfl | hj
        · rw [hf] at hfj
          obtain rfl : step = stepj := by simpa using hfj
          rw [hpj] at hp
          simp at hp
        · exact h2 j hj stepj hfj hpj
      · cases hready : readyFiltered p step
        · rw [passOnce_eq_skip false (Or.inr ⟨step, hf, Or.inr hready⟩)] at hflag ⊢
          obtain ⟨h1, h2⟩ := ih hflag
          refine ⟨h1, ?_⟩
          intro j hj stepj hfj hpj
          rcases List.mem_cons.mp hj with rfl | hj
          · rw [hf] at hfj
            obtain rfl : step = stepj := by simpa using hfj
            exact hready
          · exact h2 j hj stepj hfj hpj
        · rw [passOnce_eq_exec false hf hp hready] at hflag
          rw [passOnce_flag_true] at hflag
          exact absurd hflag (by simp)

/-! Progress and termination of the loop under the source's runner. -/

theorem passOnce_pending_le :
    ∀ (ids : List Nat) (p : Pipeline) (b : Bool),
      pendingCount (passOnce srcRunner ids p b).1 ≤ pendingCount p := by
  intro ids
  induction ids with
  | nil => exact fun p b => Nat.le_refl _
  | cons id rest ih =>
    intro p b
    cases hf : p.findStep id
    · rw [passOnce_eq_skip b (Or.inl hf)]
      exact ih p b
    case some step =>
      cases hp : step.status == StepStatus.pending
      · rw [passOnce_eq_skip b (Or.inr ⟨step, hf, Or.inl hp⟩)]
        exact ih p b
      · cases hready : readyFiltered p step
        · rw [passOnce_eq_skip b (Or.inr ⟨step, hf, Or.inr hready⟩)]
          exact ih p b
        · rw [passOnce_eq_exec b hf hp hready]
          exact Nat.le_trans (ih _ true) (executeStep_pending_le p id)

theorem passOnce_progress :
    ∀ (ids : List Nat) (p : Pipeline),
      NoDangling p →
      (passOnce srcRunner ids p false).2 = true →
      pendingCount (passOnce srcRunner ids p false).1 < pendingCount p := by
  intro ids
  induction ids with
  | nil =>
    intro p _ hflag
    rw [passOnce_nil] at hflag
    simp at hflag
  | cons id rest ih =>
    intro p hnd hflag
    cases hf : p.findStep id
    · rw [passOnce_eq_skip false (Or.inl hf)] at hflag ⊢
      exact ih p hnd hflag
    case some step =>
      cases hp : step.status == StepStatus.pending
      · rw [passOnce_eq_skip false (Or.inr ⟨step, hf, Or.inl hp⟩)] at hflag ⊢
        exact ih p hnd hflag
      · cases hready : readyFiltered p step
        · rw [passOnce_eq_skip false (Or.inr ⟨step, hf, Or.inr hready⟩)] at hflag ⊢
          exact ih p hnd hflag
        · rw [passOnce_eq_exec false hf hp hready]
          have hstrict : pendingCount (executeStep srcRunner p id).2 < pendingCount p := by
            apply executeStep_pending_lt hf (by simpa using hp)
            rw [← readyFiltered_eq_strict
              (fun d hd => hnd (id, step) (lookup_mem hf) d hd)]
            exact hready
          exact Nat.lt_of_le_of_lt (passOnce_pending_le rest _ true) hstrict

theorem allComplete_of_stuck {rank : Nat → Nat} {p : Pipeline}
    (hinv : ExecInv rank p)
    (hstuck : ∀ id ∈ p.steps.map (fun e => e.1), ∀ step,
        p.findStep id = some step → step.status = .pending →
        readyFiltered p step = false) :
    p.allComplete = true := by
  obtain ⟨hnodup, hnd, hrank, hps, _⟩ := hinv
  rw [Pipeline.allComplete, List.all_eq_true]
  by_contra hcon
  push_neg at hcon
  obtain ⟨e, he, hne⟩ := hcon
  have hpend : e.2.status = .pending := by
    rcases hps e he with h | h
    · exact h
    · rw [h] at hne
      simp at hne
  have hmem : e ∈ p.steps.filter (fun f => f.2.status == StepStatus.pending) :=
    List.mem_filter.mpr ⟨he, by simp [hpend]⟩
  obtain ⟨m, hm, hmin⟩ := exists_min_rank rank
    (show p.steps.filter (fun f => f.2.status == StepStatus.pending) ≠ [] by
      intro hnil
      rw [hnil] at hmem
      simp at hmem)
  have hm' := List.mem_filter.mp hm
  have hmp : m.2.status = .pending := by simpa using hm'.2
  have hlk : p.findStep m.1 = some m.2 := lookup_of_mem_nodup hnodup hm'.1
  have hkey : m.1 ∈ p.steps.map (fun e => e.1) := List.mem_map.mpr ⟨m, hm'.1, rfl⟩
  have hrf := hstuck m.1 hkey m.2 hlk hmp
  have hex : ∃ d ∈ m.2.dependencies, ¬ ((match p.findStep d with
      | some dep_step => dep_step.status == StepStatus.succeeded
      | none => true) = true) := by
    by_contra hall
    push_neg at hall
    have : readyFiltered p m.2 = true := by
      rw [readyFiltered, List.all_eq_true]
      intro d hd
      have := hall d hd
      revert this
      cases p.findStep d
      · simp
      · simp
    rw [this] at hrf
    simp at hrf
  obtain ⟨d, hd, hdbad⟩ := hex
  cases hfd : p.findStep d
  · rw [hfd] at hdbad
    simp at hdbad
  case some sd =>
    rw [hfd] at hdbad
    have hsd : sd.status ≠ .succeeded := by simpa using hdbad
    have hsdm : (d, sd) ∈ p.steps := lookup_mem hfd
    have hsdp : sd.status = .pending := by
      rcases hps (d, sd) hsdm with h | h
      · exact h
      · exact absurd h hsd
    have hsdf : ((d, sd) : Nat × PipelineStep)
        ∈ p.steps.filter (fun f => f.2.status == StepStatus.pending) :=
      List.mem_filter.mpr ⟨hsdm, by simp [hsdp]⟩
    have hle : rank m.1 ≤ rank d := hmin (d, sd) hsdf
    have hlt : rank d < rank m.1 := hrank m hm'.1 d hd
    omega

theorem execLoop_main {rank : Nat → Nat} :
    ∀ (fuel : Nat) (p : Pipeline), ExecInv rank p → pendingCount p < fuel →
      (execLoop srcRunner fuel p).2 = true
      ∧ ((execLoop srcRunner fuel p).1).allComplete = true := by
  intro fuel
  induction fuel with
  | zero => exact fun p _ hlt => absurd hlt (Nat.not_lt_zero _)
  | succ n ih =>
    intro p hinv hlt
    cases hip : p.status == PipelineStatus.in_progress
    · rw [execLoop_eq_stop hip]
      refine ⟨rfl, ?_⟩
      have hne : p.status ≠ .in_progress := by
        intro hc
        rw [hc] at hip
        simp at hip
      exact hinv.2.2.2.2 hne
    · rcases hres : passOnce srcRunner (p.steps.map (fun e => e.1)) p false with ⟨p2, flag⟩
      cases flag
      · rw [execLoop_eq_finish hip hres]
        refine ⟨rfl, ?_⟩
        obtain ⟨h1, h2⟩ := passOnce_false (by rw [hres] :
          (passOnce srcRunner (p.steps.map (fun e => e.1)) p false).2 = false)
        have hp2 : p2 = p := by
          rw [hres] at h1
          exact h1
        rw [hp2]
        exact allComplete_of_stuck hinv h2
      · rw [execLoop_eq_continue hip hres]
        have hinv2 : ExecInv rank p2 := by
          have := passOnce_preserve (fun q id h => executeStep_inv h)
            (p.steps.map (fun e => e.1)) p false hinv
          rwa [hres] at this
        have hdec : pendingCount p2 < pendingCount p := by
          have := passOnce_progress (p.steps.map (fun e => e.1)) p hinv.2.1
            (by rw [hres])
          rwa [hres] at this
        exact ih p2 hinv2 (by omega)

theorem pendingCount_le_length (q : Pipeline) :
    pendingCount q ≤ q.steps.length :=
  List.countP_le_length _

theorem phase1_inv {rank : Nat → Nat} {p : Pipeline}
    (h1 : KeysNodup p) (h2 : NoDangling p) (h3 : Ranked rank p)
    (h4 : PendSucc p) : ExecInv rank (phase1 srcRunner p) := by
  have hinv0 : ExecInv rank p.start := ⟨h1, h2, h3, h4, fun hne => absurd rfl hne⟩
  exact runNoDeps_preserve (fun q id h => executeStep_inv h) _ _ hinv0

theorem executePipelineAux_terminal {rank : Nat → Nat} {p : Pipeline}
    (h1 : KeysNodup p) (h2 : NoDangling p) (h3 : Ranked rank p)
    (h4 : PendSucc p) :
    (executePipelineAux srcRunner p).2 = true
    ∧ ((executePipelineAux srcRunner p).1.2).allComplete = true := by
  have hinv1 := phase1_inv h1 h2 h3 h4
  have hcount : pendingCount (phase1 srcRunner p)
      < (phase1 srcRunner p).steps.length + 1 :=
    Nat.lt_succ_of_le (pendingCount_le_length _)
  obtain ⟨hflag, hac⟩ := execLoop_main
    ((phase1 srcRunner p).steps.length + 1) (phase1 srcRunner p) hinv1 hcount
  exact ⟨hflag, hac⟩

theorem executePipeline_pc {runner : Nat → Bool} {p : Pipeline}
    (h : ProperlyCompleted p.start) :
    ProperlyCompleted (executePipeline runner p).2 := by
  have hh1 : ProperlyCompleted (phase1 runner p) :=
    runNoDeps_preserve (fun q id hq => executeStep_pc runner q id hq) _ _ h
  have hh2 : ProperlyCompleted (loopResult runner p).1 :=
    execLoop_preserve
      (fun ids q b hq => passOnce_preserve
        (fun r id hr => executeStep_pc runner r id hr) ids q b hq) _ _ hh1
  exact hh2

/-! Stalled pipelines. -/

theorem readyFiltered_false_of_blocked {p : Pipeline} {step : PipelineStep}
    (h : blockedStep p step = true) : readyFiltered p step = false := by
  rw [blockedStep, List.any_eq_true] at h
  obtain ⟨d, hd, hbad⟩ := h
  cases hfd : p.findStep d
  · rw [hfd] at hbad
    simp at hbad
  case some sd =>
    rw [hfd] at hbad
    have hsd : (sd.status == StepStatus.succeeded) = false := by simpa using hbad
    cases hready : readyFiltered p step
    · rfl
    · exfalso
      rw [readyFiltered, List.all_eq_true] at hready
      have hh := hready d hd
      rw [hfd] at hh
      simp [hsd] at hh

theorem deps_ne_nil_of_blocked {p : Pipeline} {step : PipelineStep}
    (h : blockedStep p step = true) : step.dependencies ≠ [] := by
  rw [blockedStep, List.any_eq_true] at h
  obtain ⟨d, hd, _⟩ := h
  exact List.ne_nil_of_mem hd

theorem runNoDeps_noop {runner : Nat → Bool} :
    ∀ (ids : List Nat) (p : Pipeline),
      (∀ id ∈ ids, ∀ step, p.findStep id = some step → step.dependencies ≠ []) →
      runNoDeps runner ids p = p := by
  intro ids
  induction ids with
  | nil => exact fun p _ => rfl
  | cons id rest ih =>
    intro p h
    cases hf : p.findStep id
    · rw [runNoDeps_eq_skip (Or.inl hf)]
      exact ih p (fun j hj => h j (List.mem_cons_of_mem _ hj))
    case some step =>
      have hne := h id (List.mem_cons_self id rest) step hf
      have hie : step.dependencies.isEmpty = false := by
        cases hd2 : step.dependencies
        · exact absurd hd2 hne
        · rfl
      rw [runNoDeps_eq_skip (Or.inr ⟨step, hf, hie⟩)]
      exact ih p (fun j hj => h j (List.mem_cons_of_mem _ hj))

theorem passOnce_noexec {runner : Nat → Bool} :
    ∀ (ids : List Nat) (p : Pipeline),
      (∀ id ∈ ids, ∀ step, p.findStep id = some step →
        step.status = .pending → readyFiltered p step = false) →
      passOnce runner ids p false = (p, false) := by
  intro ids
  induction ids with
  | nil => exact fun p _ => rfl
  | cons id rest ih =>
    intro p h
    cases hf : p.findStep id
    · rw [passOnce_eq_skip false (Or.inl hf)]
      exact ih p (fun j hj => h j (List.mem_cons_of_mem _ hj))
    case some step =>
      cases hp : step.status == StepStatus.pending
      · rw [passOnce_eq_skip false (Or.inr ⟨step, hf, Or.inl hp⟩)]
        exact ih p (fun j hj => h j (List.mem_cons_of_mem _ hj))
      · have hready := h id (List.mem_cons_self id rest) step hf (by simpa using hp)
        rw [passOnce_eq_skip false (Or.inr ⟨step, hf, Or.inr hready⟩)]
        exact ih p (fun j hj => h j (List.mem_cons_of_mem _ hj))

theorem executePipelineAux_stalled {runner : Nat → Bool} {p : Pipeline}
    (hstall : ∀ e ∈ p.steps, blockedStep p e.2 = true) :
    executePipelineAux runner p = ((false, p.start), true) := by
  have hblock : ∀ id step, p.findStep id = some step → blockedStep p step = true :=
    fun id step hf => hstall (id, step) (lookup_mem hf)
  have hphase : phase1 runner p = p.start := by
    apply runNoDeps_noop
    intro id _ step hf
    exact deps_ne_nil_of_blocked (hblock id step hf)
  have hpass : passOnce runner (p.start.steps.map (fun e => e.1)) p.start false
      = (p.start, false) := by
    apply passOnce_noexec
    intro id _ step hf _
    exact readyFiltered_false_of_blocked (hblock id step hf)
  have hloop : loopResult runner p = (p.start, true) := by
    rw [loopResult, hphase]
    exact execLoop_eq_finish rfl hpass
  rw [executePipelineAux, hloop]
  rfl

/-! Dictionary-update lemmas (`variables` merging). -/

theorem lookup_map_upd {α : Type} (d : List (String × α)) (k : String) (v : α)
    (h : d.any (fun e => e.1 == k) = true) :
    (d.map (fun e => if e.1 == k then (k, v) else e)).lookup k = some v := by
  induction d with
  | nil => simp at h
  | cons e t ih =>
    obtain ⟨k', v'⟩ := e
    simp only [List.map_cons]
    by_cases hk : (k' == k) = true
    · rw [if_pos hk, lookup_cons_if, if_pos (by simp : ((k : String) == k) = true)]
    · have hkf : (k' == k) = false := by
        rw [Bool.not_eq_true] at hk
        exact hk
      have hk2 : (k == k') = false := by
        rw [beq_eq_false_iff_ne] at hkf ⊢
        exact fun hc => hkf hc.symm
      rw [if_neg hk, lookup_cons_if, if_neg (by simp [hk2])]
      apply ih
      simpa [hkf] using h

theorem lookup_append_single {α : Type} (d : List (String × α)) (k : String)
    (v : α) (h : d.any (fun e => e.1 == k) = false) :
    (d ++ [(k, v)]).lookup k = some v := by
  induction d with
  | nil => simp [lookup_cons_if]
  | cons e t ih =>
    obtain ⟨k', v'⟩ := e
    have h' : (k' == k) = false ∧ t.any (fun e => e.1 == k) = false := by
      simpa using h
    have hk2 : (k == k') = false := by
      have := h'.1
      rw [beq_eq_false_iff_ne] at this ⊢
      exact fun hc => this hc.symm
    rw [List.cons_append, lookup_cons_if, if_neg (by simp [hk2])]
    exact ih h'.2

theorem dictUpd_lookup_self {α : Type} (d : List (String × α)) (k : String)
    (v : α) : (dictUpd d k v).lookup k = some v := by
  by_cases h : d.any (fun e => e.1 == k) = true
  · rw [dictUpd, if_pos h]
    exact lookup_map_upd d k v h
  · have hf : d.any (fun e => e.1 == k) = false := by
      rw [Bool.not_eq_true] at h
      exact h
    rw [dictUpd, if_neg h]
    exact lookup_append_single d k v hf

theorem dictUpd_lookup_ne {α : Type} (d : List (String × α)) (k k' : String)
    (v : α) (hne : k' ≠ k) : (dictUpd d k v).lookup k' = d.lookup k' := by
  by_cases h : d.any (fun e => e.1 == k) = true
  · rw [dictUpd, if_pos h]
    clear h
    induction d with
    | nil => rfl
    | cons e t ih =>
      obtain ⟨k0, v0⟩ := e
      simp only [List.map_cons]
      by_cases hk0 : (k0 == k) = true
      · obtain rfl := eq_of_beq hk0
        have hcf : (k' == k0) = false := beq_eq_false_iff_ne.mpr hne
        rw [if_pos (by simp), lookup_cons_if, lookup_cons_if, hcf]
        simp only [Bool.false_eq_true, if_false]
        exact ih
      · rw [if_neg hk0, lookup_cons_if, lookup_cons_if]
        cases hc : k' == k0
        · simp only [Bool.false_eq_true, if_false]
          exact ih
        · simp
  · rw [dictUpd, if_neg h]
    rw [List.lookup_append]
    have hsingle : ([((k : String), v)] : List (String × α)).lookup k' = none := by
      rw [lookup_cons_if, if_neg (by simp [beq_eq_false_iff_ne.mpr hne])]
      rfl
    rw [hsingle]
    cases d.lookup k' <;> rfl

theorem mem_dictUpd {α : Type} {d : List (String × α)} {k : String} {v : α}
    {e : String × α} (h : e ∈ dictUpd d k v) : e ∈ d ∨ e = (k, v) := by
  rw [dictUpd] at h
  by_cases hc : d.any (fun e => e.1 == k) = true
  · rw [if_pos hc] at h
    obtain ⟨a, ha, rfl⟩ := List.mem_map.mp h
    by_cases hk : (a.1 == k) = true
    · right
      simp [hk]
    · left
      have hk' : (a.1 == k) = false := by
        rw [Bool.not_eq_true] at hk
        exact hk
      simpa [hk'] using ha
  · rw [if_neg hc] at h
    rcases List.mem_append.mp h with h1 | h1
    · exact Or.inl h1
    · right
      simpa using h1

theorem mergeVars_app_id (vars : List (String × String)) (a v : String) :
    (mergeVars vars a v).lookup "APP_ID" = some a := by
  rw [mergeVars,
    dictUpd_lookup_ne _ "VERSION" "APP_ID" v (by decide : ("APP_ID" : String) ≠ "VERSION")]
  exact dictUpd_lookup_self vars "APP_ID" a

theorem mergeVars_version (vars : List (String × String)) (a v : String) :
    (mergeVars vars a v).lookup "VERSION" = some v :=
  dictUpd_lookup_self _ "VERSION" v

/-! Instantiation lemmas. -/

theorem buildSteps_cons (varsMap : List (String × String)) (st : StepTemplate)
    (rest : List StepTemplate) (acc : List (Nat × PipelineStep))
    (idMap : List (String × Nat)) (next : Nat) :
    buildSteps varsMap (st :: rest) acc idMap next
      = buildSteps varsMap rest
          (acc ++ [(next,
            { name := st.name
              stage := st.stage
              command := substituteCommand varsMap st.command_template
              dependencies := []
              status := .pending
              logs := ""
              started_at := none
              completed_at := none })])
          (dictUpd idMap st.name next) (next + 1) := rfl

theorem buildSteps_length (varsMap : List (String × String)) :
    ∀ (ts : List StepTemplate) (acc : List (Nat × PipelineStep))
      (idMap : List (String × Nat)) (next : Nat),
      (buildSteps varsMap ts acc idMap next).1.length = acc.length + ts.length := by
  intro ts
  induction ts with
  | nil => intro acc idMap next; simp [buildSteps]
  | cons st rest ih =>
    intro acc idMap next
    rw [buildSteps_cons, ih]
    simp
    omega

theorem buildSteps_sound (varsMap : List (String × String)) :
    ∀ (ts : List StepTemplate) (acc : List (Nat × PipelineStep))
      (idMap : List (String × Nat)) (next : Nat),
      (∀ e ∈ idMap, ∃ f ∈ acc, f.1 = e.2) →
      ∀ e ∈ (buildSteps varsMap ts acc idMap next).2,
        ∃ f ∈ (buildSteps varsMap ts acc idMap next).1, f.1 = e.2 := by
  intro ts
  induction ts with
  | nil =>
    intro acc idMap next h
    exact h
  | cons st rest ih =>
    intro acc idMap next h
    rw [buildSteps_cons]
    apply ih
    intro e he
    rcases mem_dictUpd he with hm | rfl
    · obtain ⟨f, hf, hfe⟩ := h e hm
      exact ⟨f, List.mem_append_left _ hf, hfe⟩
    · exact ⟨(next,
        { name := st.name
          stage := st.stage
          command := substituteCommand varsMap st.command_template
          dependencies := []
          status := .pending
          logs := ""
          started_at := none
          completed_at := none }),
        List.mem_append_right _ (List.mem_singleton.mpr rfl), rfl⟩

theorem resolveDeps_keys (idMap : List (String × Nat)) :
    ∀ (steps : List (Nat × PipelineStep)) (ts : List StepTemplate),
      steps.length = ts.length →
      (resolveDeps idMap steps ts).map Prod.fst = steps.map Prod.fst := by
  intro steps
  induction steps with
  | nil => intro ts _; rfl
  | cons e rest ih =>
    intro ts hlen
    cases ts with
    | nil => simp at hlen
    | cons st ts' =>
      obtain ⟨id, step⟩ := e
      simp only [resolveDeps, List.map_cons]
      rw [ih ts' (by simpa using hlen)]

theorem resolveDeps_mem (idMap : List (String × Nat)) :
    ∀ (steps : List (Nat × PipelineStep)) (ts : List StepTemplate)
      (e : Nat × PipelineStep), e ∈ resolveDeps idMap steps ts →
      ∃ st : StepTemplate,
        e.2.dependencies = st.dependencies.filterMap (fun n => idMap.lookup n) := by
  intro steps
  induction steps with
  | nil =>
    intro ts e he
    simp [resolveDeps] at he
  | cons f rest ih =>
    intro ts e he
    cases ts with
    | nil =>
      obtain ⟨id, step⟩ := f
      simp [resolveDeps] at he
    | cons st ts' =>
      obtain ⟨id, step⟩ := f
      simp only [resolveDeps] at he
      rcases List.mem_cons.mp he with rfl | he'
      · exact ⟨st, rfl⟩
      · exact ih ts' e he'

theorem createPipeline_steps (t : PipelineTemplate) (a v : String)
    (vars : List (String × String)) :
    (createPipeline t a v vars).steps
      = resolveDeps (builtSteps t a v vars).2 (builtSteps t a v vars).1 t.steps :=
  rfl

theorem builtSteps_length (t : PipelineTemplate) (a v : String)
    (vars : List (String × String)) :
    (builtSteps t a v vars).1.length = t.steps.length := by
  rw [builtSteps, buildSteps_length]
  simp

theorem createPipeline_deps_present (t : PipelineTemplate) (a v : String)
    (vars : List (String × String)) :
    ∀ e ∈ (createPipeline t a v vars).steps, ∀ d ∈ e.2.dependencies,
      ((createPipeline t a v vars).findStep d).isSome = true := by
  intro e he d hd
  rw [createPipeline_steps] at he
  obtain ⟨st, hdeps⟩ := resolveDeps_mem _ _ _ e he
  rw [hdeps] at hd
  obtain ⟨n, _, hlk⟩ := List.mem_filterMap.mp hd
  have hnm : ((n, d) : String × Nat) ∈ (builtSteps t a v vars).2 := lookup_mem hlk
  have hsound := buildSteps_sound (mergeVars vars a v) t.steps [] [] 0
    (by intro e he; simp at he) (n, d) hnm
  obtain ⟨f, hf, hfd⟩ := hsound
  have hkeys : (createPipeline t a v vars).steps.map Prod.fst
      = (builtSteps t a v vars).1.map Prod.fst := by
    rw [createPipeline_steps]
    exact resolveDeps_keys _ _ _ (by rw [builtSteps_length])
  rw [Pipeline.findStep, lookup_isSome_congr_keys hkeys d]
  rw [List.lookup_isSome_iff]
  exact ⟨f, hf, by simp [hfd]⟩

/-! Claim theorems. -/

/-- C1: execute_step checks every dependency before invoking step.start():
whenever some dependency id of the step does not map to a SUCCEEDED step of
the pipeline, execute_step returns False with the pipeline unchanged, so the
step is never started and never transitions to IN_PROGRESS while a
dependency is not SUCCEEDED. -/
theorem c1_execute_step_checks_dependencies (runner : Nat → Bool) (p : Pipeline)
    (step_id : Nat) (step : PipelineStep)
    (hfind : p.findStep step_id = some step)
    (hdep : ¬ depsSatisfied p step) : executeStep runner p step_id = (false, p) := by
  have hr : readyStrict p step = false := by
    cases hc : readyStrict p step
    · rfl
    · exact absurd ((readyStrict_iff p step).mp hc) hdep
  rcases executeStep_shape runner p step_id with ⟨hf, heq⟩ | ⟨step', hf, hr', heq⟩ |
    ⟨step', hf, hr', hrun, hac, heq⟩ | ⟨step', hf, hr', hrun, hac, heq⟩ |
    ⟨step', hf, hr', hrun, heq⟩
  · rw [hfind] at hf
    exact absurd hf (by simp)
  · exact heq
  · rw [hfind] at hf
    obtain rfl : step = step' := by simpa using hf
    rw [hr] at hr'
    exact absurd hr' (by simp)
  · rw [hfind] at hf
    obtain rfl : step = step' := by simpa using hf
    rw [hr] at hr'
    exact absurd hr' (by simp)
  · rw [hfind] at hf
    obtain rfl : step = step' := by simpa using hf
    rw [hr] at hr'
    exact absurd hr' (by simp)

/-- Witness for C1 at a concrete input: in badDepPipeline, step 1 depends on
step 0 which is still pending, and execute_step refuses to start it. -/
theorem c1_witness :
    executeStep srcRunner badDepPipeline 1 = (false, badDepPipeline) :=
  c1_execute_step_checks_dependencies srcRunner badDepPipeline 1
    stepWithPendingDep (by decide) (by decide)

/-- C2 counterexample: on the two-step dependency cycle the execution loop
does terminate by its own condition, but the pipeline's status is left
IN_PROGRESS and is never set to FAILED, refuting the claim as stated. -/
theorem c2_counterexample :
    (executePipelineAux srcRunner cyclePipeline).2 = true
    ∧ (executePipeline srcRunner cyclePipeline).2.status = PipelineStatus.in_progress
    ∧ ¬ (executePipeline srcRunner cyclePipeline).2.status = PipelineStatus.failed := by
  decide

/-- C2 (amended): when every step of the pipeline has some dependency mapping
to a step that is not SUCCEEDED (the shape of a dependency cycle), the
execution loop terminates by its own condition, but the pipeline is not
marked FAILED: its status remains IN_PROGRESS, completed_at is unchanged,
and execute_pipeline returns False. -/
theorem c2_amended_stall_leaves_in_progress (runner : Nat → Bool) (p : Pipeline)
    (hstall : ∀ e ∈ p.steps, blockedStep p e.2 = true) :
    (executePipelineAux runner p).2 = true
    ∧ (executePipelineAux runner p).1.2.status = PipelineStatus.in_progress
    ∧ (executePipelineAux runner p).1.2.completed_at = p.completed_at
    ∧ (executePipelineAux runner p).1.1 = false := by
  rw [executePipelineAux_stalled hstall]
  exact ⟨rfl, rfl, rfl, rfl⟩

/-- Witness for the amended C2 at the concrete two-step cycle. -/
theorem c2_witness :
    (executePipelineAux srcRunner cyclePipeline).2 = true
    ∧ (executePipelineAux srcRunner cyclePipeline).1.2.status = PipelineStatus.in_progress
    ∧ (executePipelineAux srcRunner cyclePipeline).1.2.completed_at
        = cyclePipeline.completed_at
    ∧ (executePipelineAux srcRunner cyclePipeline).1.1 = false :=
  c2_amended_stall_leaves_in_progress srcRunner cyclePipeline (by decide)

/-- C3: when execute_pipeline drives a pipeline that starts with some
unfinished step to a state where every step is terminal, the pipeline's
final status is FAILED exactly when some step failed and SUCCEEDED when
every step succeeded, and completed_at is recorded. -/
theorem c3_terminal_status_derivation (runner : Nat → Bool) (p : Pipeline)
    (hstart : p.allComplete = false)
    (hterm : ((executePipeline runner p).2).allComplete = true) :
    ((executePipeline runner p).2).status
      = (if ((executePipeline runner p).2).anyFailed then PipelineStatus.failed
         else PipelineStatus.succeeded)
    ∧ ((executePipeline runner p).2).completed_at = some () := by
  have h0 : ProperlyCompleted p.start := by
    intro hac
    rw [allComplete_start, hstart] at hac
    simp at hac
  exact executePipeline_pc h0 hterm

/-- Witness for C3 at a concrete single-step pipeline that runs to success. -/
theorem c3_witness :
    ((executePipeline srcRunner singleStepPipeline).2).status
      = (if ((executePipeline srcRunner singleStepPipeline).2).anyFailed
         then PipelineStatus.failed else PipelineStatus.succeeded)
    ∧ ((executePipeline srcRunner singleStepPipeline).2).completed_at = some () :=
  c3_terminal_status_derivation srcRunner singleStepPipeline (by decide) (by decide)

/-- C4: in the diamond A→B, A→C, B→D, C→D where executing B fails while A and
C succeed, execute_pipeline still executes C to SUCCEEDED, never starts D
(still pending, started_at unset), records A SUCCEEDED and B FAILED, and the
pipeline's status is FAILED: a failed step does not prevent execution of
steps that do not depend on it. -/
theorem c4_diamond_failure_isolation :
    ((executePipeline diamondRunner diamondPipeline).2.findStep 0).map
        (fun s => s.status) = some StepStatus.succeeded
    ∧ ((executePipeline diamondRunner diamondPipeline).2.findStep 1).map
        (fun s => s.status) = some StepStatus.failed
    ∧ ((executePipeline diamondRunner diamondPipeline).2.findStep 2).map
        (fun s => s.status) = some StepStatus.succeeded
    ∧ ((executePipeline diamondRunner diamondPipeline).2.findStep 3).map
        (fun s => s.status) = some StepStatus.pending
    ∧ ((executePipeline diamondRunner diamondPipeline).2.findStep 3).map
        (fun s => s.started_at) = some none
    ∧ (executePipeline diamondRunner diamondPipeline).2.status
        = PipelineStatus.failed := by
  decide

/-- C5: for every pipeline whose dependency graph is acyclic (a rank function
strictly decreases along dependency edges) and whose dependency ids are all
present in the step map, with all steps initially pending and distinct keys
(as a Python dict guarantees), execute_pipeline terminates — its loop exits
by its own condition — and when it returns every step's status is terminal.
Proved for the execution realised by the source, whose simulated command
execution always reports success. -/
theorem c5_terminal_closure (p : Pipeline) (rank : Nat → Nat)
    (hnodup : KeysNodup p)
    (hpend : ∀ e ∈ p.steps, e.2.status = StepStatus.pending)
    (hnd : NoDangling p) (hrank : Ranked rank p) :
    (executePipelineAux srcRunner p).2 = true
    ∧ ((executePipelineAux srcRunner p).1.2).allComplete = true :=
  executePipelineAux_terminal hnodup hnd hrank (fun e he => Or.inl (hpend e he))

/-- Witness for C5 at a concrete two-step chain. -/
theorem c5_witness :
    (executePipelineAux srcRunner chainPipeline).2 = true
    ∧ ((executePipelineAux srcRunner chainPipeline).1.2).allComplete = true :=
  c5_terminal_closure chainPipeline (fun n => n) (by decide) (by decide)
    (by decide) (by decide)

/-- C6: variable substitution replaces every occurrence of each bound
placeholder with its value and leaves placeholders with no binding verbatim:
the spec's example template instantiated with app id "app-1", version "2.0"
and ENV = "staging" yields the command "deploy app-1 2.0 staging", and a
template using the unbound FOO keeps its placeholder verbatim. -/
theorem c6_variable_substitution :
    ((createPipeline tmplSubst "app-1" "2.0" [("ENV", "staging")]).findStep 0).map
        (fun s => s.command) = some "deploy app-1 2.0 staging"
    ∧ ((createPipeline tmplUnbound "app-1" "2.0" []).findStep 0).map
        (fun s => s.command) = some "run $\x7bFOO\x7d" := by
  decide

/-- C7: the implicit bindings APP_ID = app_id and VERSION = version take
precedence over caller-supplied values: for every caller mapping the merged
variables used by create_pipeline bind APP_ID and VERSION to the
instantiation arguments, and a pipeline created with a caller trying to
override both keys still substitutes the instantiation arguments. -/
theorem c7_implicit_bindings_win (app_id version : String)
    (vars : List (String × String)) :
    (mergeVars vars app_id version).lookup "APP_ID" = some app_id
    ∧ (mergeVars vars app_id version).lookup "VERSION" = some version
    ∧ ((createPipeline tmplOverride "app-1" "1.0"
          [("APP_ID", "evil"), ("VERSION", "9.9")]).findStep 0).map
        (fun s => s.command) = some "run app-1 1.0" :=
  ⟨mergeVars_app_id vars app_id version, mergeVars_version vars app_id version,
    by decide⟩

/-- C8: every pipeline returned by create_pipeline references only existing
steps: each dependency id of each step is a key of the pipeline's step map;
and a dependsOn name matching no step of the template is silently omitted —
the template whose only step X depends on the undeclared Y instantiates
without error, X ending with an empty dependency list. -/
theorem c8_dependencies_resolve_within_pipeline (t : PipelineTemplate)
    (app_id version : String) (vars : List (String × String)) :
    (∀ e ∈ (createPipeline t app_id version vars).steps, ∀ d ∈ e.2.dependencies,
      ((createPipeline t app_id version vars).findStep d).isSome = true)
    ∧ ((createPipeline tmplDangling "a" "1" []).findStep 0).map
        (fun s => s.dependencies) = some [] :=
  ⟨createPipeline_deps_present t app_id version vars, by decide⟩

/-- C9: create_pipeline mutates a non-empty caller-supplied variables dict in
place: after the call the caller's dict is the merged map, with APP_ID and
VERSION bound to the instantiation arguments, overwriting whatever the
caller had stored under those keys. -/
theorem c9_caller_variables_mutated (t : PipelineTemplate)
    (app_id version : String) (vars : List (String × String)) (h : vars ≠ []) :
    (createPipelineVars t app_id version vars).2 = mergeVars vars app_id version
    ∧ (createPipelineVars t app_id version vars).2.lookup "APP_ID" = some app_id
    ∧ (createPipelineVars t app_id version vars).2.lookup "VERSION" = some version := by
  have hpost : (createPipelineVars t app_id version vars).2
      = mergeVars vars app_id version := by
    cases vars with
    | nil => exact absurd rfl h
    | cons e t' => rfl
  refine ⟨hpost, ?_, ?_⟩
  · rw [hpost]
    exact mergeVars_app_id vars app_id version
  · rw [hpost]
    exact mergeVars_version vars app_id version

/-- Witness for C9: a caller binding APP_ID to "evil" sees its dict
overwritten with the instantiation arguments. -/
theorem c9_witness :
    (createPipelineVars tmplOverride "app-1" "1.0" [("APP_ID", "evil")]).2
      = mergeVars [("APP_ID", "evil")] "app-1" "1.0"
    ∧ (createPipelineVars tmplOverride "app-1" "1.0" [("APP_ID", "evil")]).2.lookup
        "APP_ID" = some "app-1"
    ∧ (createPipelineVars tmplOverride "app-1" "1.0" [("APP_ID", "evil")]).2.lookup
        "VERSION" = some "1.0" :=
  c9_caller_variables_mutated tmplOverride "app-1" "1.0" [("APP_ID", "evil")]
    (by decide)

/-- C10: executing a pipeline with no steps terminates but never marks the
pipeline complete: execute_pipeline returns False, the status stays
IN_PROGRESS and completed_at stays unset, because pipeline completion is
only computed inside execute_step. -/
theorem c10_empty_pipeline_never_completes (runner : Nat → Bool) (p : Pipeline)
    (hsteps : p.steps = []) (hc : p.completed_at = none) :
    (executePipeline runner p).1 = false
    ∧ (executePipeline runner p).2.status = PipelineStatus.in_progress
    ∧ (executePipeline runner p).2.completed_at = none := by
  have hstall : ∀ e ∈ p.steps, blockedStep p e.2 = true := by
    rw [hsteps]
    simp
  have haux := @executePipelineAux_stalled runner p hstall
  unfold executePipeline
  rw [haux]
  exact ⟨rfl, rfl, hc⟩

/-- Witness for C10 at the concrete empty pipeline. -/
theorem c10_witness :
    (executePipeline srcRunner emptyPipeline).1 = false
    ∧ (executePipeline srcRunner emptyPipeline).2.status = PipelineStatus.in_progress
    ∧ (executePipeline srcRunner emptyPipeline).2.completed_at = none :=
  c10_empty_pipeline_never_completes srcRunner emptyPipeline (by decide) (by decide)
